import Mathlib

/-!
Shallow embedding of the go-database file-backed document store (src/main.go).

The filesystem is modelled as an explicit state: an association list of
regular files (path component list to byte content, bytes as `String`) plus
the list of existing directories.  Collection and resource strings are path
components (directory / file names), matching the on-disk contract of the
store (one subdirectory per collection, one file per resource).  The
document encoding (`encoding/json`) is external to the core per the spec and
is modelled as a pluggable `Serializer`.  Fallible operations return
`Except DbError` values; the per-collection `sync.Mutex` registry is
modelled by its observable state, a map from collection name to a stable
lock identifier.
-/

/-- FPath in the model filesystem: a list of name components. -/
abbrev FPath := List String

/-- Kind of an existing filesystem entry, as reported by a metadata probe. -/
inductive FType where
  | file
  | dir
deriving DecidableEq, Repr

/-- Error kinds of the store, following the classification of the spec:
validation failures (empty names), missing targets, filesystem failures and
serializer failures. -/
inductive DbError where
  | validation (msg : String)
  | notFound
  | ioError
  | serialization
deriving DecidableEq, Repr

/-- Filesystem state: regular files with their contents, and directories. -/
structure Fs where
  files : List (FPath × String)
  dirs : List FPath
deriving DecidableEq, Repr

/-- Content of the file stored at a path, if any. -/
def findVal : List (FPath × String) → FPath → Option String
  | [], _ => none
  | e :: rest, p => if e.1 = p then some e.2 else findVal rest p

/-- Membership test on a list of paths. -/
def hasPath : List FPath → FPath → Bool
  | [], _ => false
  | q :: rest, p => if q = p then true else hasPath rest p

/-- Component-wise test that the first path leads to the second. -/
def isPre : FPath → FPath → Bool
  | [], _ => true
  | _ :: _, [] => false
  | a :: p, b :: q => if a = b then isPre p q else false

/-- Appending a string suffix to a joined path string modifies the last
component; this is the component-level counterpart of Go string append on a
joined path (src/main.go:62,79,110,155). -/
def addSuffix : FPath → String → FPath
  | [], s => [s]
  | [a], s => [a ++ s]
  | a :: b :: rest, s => a :: addSuffix (b :: rest) s

/-- Existence of a directory; the empty path is the implicit root. -/
def isDirB (fs : Fs) (p : FPath) : Bool :=
  if p = [] then true else hasPath fs.dirs p

/-- Embeds a single os.Stat probe: reports the kind of the entry. -/
def statOne (fs : Fs) (p : FPath) : Option FType :=
  if isDirB fs p then some .dir
  else if (findVal fs.files p).isSome then some .file
  else none

/-- Serialized document suffix used throughout src/main.go. -/
def jsonSuffix : String := ".json"

/-- Temporary file suffix used by Write (src/main.go:79). -/
def tmpSuffix : String := ".tmp"

/-- Embeds stat (src/main.go:60-65): probe the bare path and, when it does
not exist, fall back to the suffixed path. -/
def stat (fs : Fs) (p : FPath) : Except DbError FType :=
  match statOne fs p with
  | some t => .ok t
  | none =>
    match statOne fs (addSuffix p jsonSuffix) with
    | some t => .ok t
    | none => .error .notFound

/-- Store or overwrite the file at a path. -/
def setFile (l : List (FPath × String)) (p : FPath) (c : String) : List (FPath × String) :=
  (p, c) :: l.filter (fun e => decide (e.1 ≠ p))

/-- Embeds ioutil.ReadFile: reading a directory fails, a missing file is not
found, otherwise the raw content is returned. -/
def readFile (fs : Fs) (p : FPath) : Except DbError String :=
  if isDirB fs p then .error .ioError
  else
    match findVal fs.files p with
    | some c => .ok c
    | none => .error .notFound

/-- Embeds ioutil.WriteFile: fails when the target is a directory or the
parent directory does not exist, otherwise creates or truncates the file. -/
def writeFile (fs : Fs) (p : FPath) (c : String) : Except DbError Fs :=
  if isDirB fs p then .error .ioError
  else if isDirB fs p.dropLast then .ok { fs with files := setFile fs.files p c }
  else .error .ioError

/-- All nonempty leading portions of a path, the path itself included. -/
def leadParts : FPath → List FPath
  | [] => []
  | a :: rest => [a] :: (leadParts rest).map (fun q => a :: q)

/-- Embeds os.MkdirAll (src/main.go:81): fails when a file blocks some
component of the path, otherwise creates every missing directory on it. -/
def mkdirAll (fs : Fs) (p : FPath) : Except DbError Fs :=
  if (leadParts p).any (fun q => (findVal fs.files q).isSome) then .error .ioError
  else .ok { fs with dirs := fs.dirs ++ (leadParts p).filter (fun q => ! hasPath fs.dirs q) }

/-- Relocation of one path under a directory rename. -/
def renameUnder (src dst p : FPath) : FPath :=
  if isPre src p then dst ++ p.drop src.length else p

/-- Embeds os.Rename (src/main.go:94): the source must exist and the target
parent must be a directory; a file source replaces a file target but cannot
replace a directory; a directory source moves its subtree to a fresh target. -/
def rename (fs : Fs) (src dst : FPath) : Except DbError Fs :=
  if isDirB fs dst.dropLast = false then .error .ioError
  else
    match findVal fs.files src with
    | some c =>
      if hasPath fs.dirs dst then .error .ioError
      else .ok { fs with files := setFile (fs.files.filter (fun e => decide (e.1 ≠ src))) dst c }
    | none =>
      if isDirB fs src then
        if statOne fs dst = none then
          .ok { files := fs.files.map (fun e => (renameUnder src dst e.1, e.2)),
                dirs := fs.dirs.map (renameUnder src dst) }
        else .error .ioError
      else .error .notFound

/-- Embeds os.RemoveAll (src/main.go:153,155): removes the target and
everything below it; removing a missing target is not an error. -/
def removeAll (fs : Fs) (p : FPath) : Fs :=
  { files := fs.files.filter (fun e => ! isPre p e.1),
    dirs := fs.dirs.filter (fun q => ! isPre p q) }

/-- Name of a direct child of a directory, when the path is one. -/
def childOf (p q : FPath) : Option String :=
  if isPre p q then
    match q.drop p.length with
    | [n] => some n
    | _ => none
  else none

/-- Keep the first occurrence of every name. -/
def dedup : List String → List String
  | [] => []
  | a :: rest => a :: (dedup rest).filter (fun b => decide (b ≠ a))

/-- Every path recorded in the filesystem state. -/
def allPaths (fs : Fs) : List FPath :=
  fs.files.map (fun e => e.1) ++ fs.dirs

/-- Names of the entries of a directory. -/
def childNames (fs : Fs) (p : FPath) : List String :=
  dedup ((allPaths fs).filterMap (childOf p))

/-- Embeds ioutil.ReadDir (src/main.go:126): fails unless the target is a
directory, otherwise lists the names of its entries. -/
def readDir (fs : Fs) (p : FPath) : Except DbError (List String) :=
  if isDirB fs p then .ok (childNames fs p)
  else if (findVal fs.files p).isSome then .error .ioError
  else .error .notFound

/-- Pluggable document serializer (the spec treats the json encoding as an
external collaborator with encode and decode halves). -/
structure Serializer (Doc : Type) where
  marshal : Doc → Option String
  unmarshal : String → Option Doc

/-- Embeds the Driver struct (src/main.go:25-30): the root directory and the
observable state of the per-collection mutex registry, each sync.Mutex
object represented by a stable numeric identity. -/
structure Driver where
  dir : FPath
  mutexes : List (String × Nat)
  nextM : Nat
deriving DecidableEq, Repr

/-- Lookup in the mutex registry. -/
def mlookup : List (String × Nat) → String → Option Nat
  | [], _ => none
  | e :: rest, c => if e.1 = c then some e.2 else mlookup rest c

/-- Embeds Driver.getOrCreateMutex (src/main.go:160-169): return the
registered lock for the collection, creating and registering a fresh one
when absent. -/
def Driver.getOrCreateMutex (d : Driver) (collection : String) : Nat × Driver :=
  match mlookup d.mutexes collection with
  | some m => (m, d)
  | none =>
    (d.nextM, { d with mutexes := (collection, d.nextM) :: d.mutexes, nextM := d.nextM + 1 })

/-- Embeds Driver.Write (src/main.go:67-95): validate the names, take the
collection mutex, ensure the collection directory, marshal the document
with a trailing newline into a temp file, and rename it over the final
path. -/
def Driver.write {Doc : Type} (S : Serializer Doc) (d : Driver) (fs : Fs)
    (collection resource : String) (value : Doc) : Except DbError Unit × Driver × Fs :=
  if collection = "" then
    (.error (.validation "Missing collection - no place to save records"), d, fs)
  else if resource = "" then
    (.error (.validation "Missing resource - unable to save records (no name)"), d, fs)
  else
    let d1 := (d.getOrCreateMutex collection).2
    let dir := d.dir ++ [collection]
    let finalPath := dir ++ [resource ++ jsonSuffix]
    let tempPath := addSuffix finalPath tmpSuffix
    match mkdirAll fs dir with
    | .error e => (.error e, d1, fs)
    | .ok fs1 =>
      match S.marshal value with
      | none => (.error .serialization, d1, fs1)
      | some b =>
        match writeFile fs1 tempPath (b ++ "\n") with
        | .error e => (.error e, d1, fs1)
        | .ok fs2 =>
          match rename fs2 tempPath finalPath with
          | .error e => (.error e, d1, fs2)
          | .ok fs3 => (.ok (), d1, fs3)

/-- Embeds Driver.Read (src/main.go:97-115): validate the names, resolve the
record path through the fallback stat, then read the suffixed path and
unmarshal its content. -/
def Driver.read {Doc : Type} (S : Serializer Doc) (d : Driver) (fs : Fs)
    (collection resource : String) : Except DbError Doc :=
  if collection = "" then .error (.validation "Missing collection - unable to read")
  else if resource = "" then
    .error (.validation "Missing resource - unable to save record (no name)")
  else
    let record := d.dir ++ [collection, resource]
    match stat fs record with
    | .error e => .error e
    | .ok _ =>
      match readFile fs (addSuffix record jsonSuffix) with
      | .error e => .error e
      | .ok b =>
        match S.unmarshal b with
        | some v => .ok v
        | none => .error .serialization

/-- Loop of Driver.ReadAll (src/main.go:131-137): read every entry of the
directory in order, stopping with the first failure. -/
def readEntries (fs : Fs) (dir : FPath) : List String → Except DbError (List String)
  | [] => .ok []
  | n :: rest =>
    match readFile fs (dir ++ [n]) with
    | .error e => .error e
    | .ok s =>
      match readEntries fs dir rest with
      | .error e => .error e
      | .ok ss => .ok (s :: ss)

/-- Embeds Driver.ReadAll (src/main.go:117-139): validate the collection,
resolve the collection directory through the fallback stat, list the
directory and read the raw bytes of every entry. -/
def Driver.readAll (d : Driver) (fs : Fs) (collection : String) :
    Except DbError (List String) :=
  if collection = "" then .error (.validation "Missing collection - unable to read")
  else
    let dir := d.dir ++ [collection]
    match stat fs dir with
    | .error e => .error e
    | .ok _ =>
      match readDir fs dir with
      | .error e => .error e
      | .ok names => readEntries fs dir names

/-- Joining the collection and resource names drops empty components, as
filepath.Join does on the strings of src/main.go:142. -/
def joinNames (collection resource : String) : FPath :=
  (if collection = "" then [] else [collection])
    ++ (if resource = "" then [] else [resource])

/-- Embeds Driver.Delete (src/main.go:141-158): no name validation; take the
collection mutex, resolve the combined path through the fallback stat, then
remove a directory recursively, or remove the suffixed variant of a regular
file, or fail when nothing was found. -/
def Driver.delete (d : Driver) (fs : Fs) (collection resource : String) :
    Except DbError Unit × Driver × Fs :=
  let path := joinNames collection resource
  let d1 := (d.getOrCreateMutex collection).2
  let dir := d.dir ++ path
  match stat fs dir with
  | .error _ => (.error .notFound, d1, fs)
  | .ok .dir => (.ok (), d1, removeAll fs dir)
  | .ok .file => (.ok (), d1, removeAll fs (addSuffix dir jsonSuffix))

/-- Concrete serializer used for the concrete evaluations below: a document
is a natural number, encoded in unary; decoding tolerates the trailing
newline that Write appends. -/
def serNat : Serializer Nat where
  marshal := fun n => some (String.mk (List.replicate n 'a'))
  unmarshal := fun s => some ((s.data.takeWhile (fun ch => ch == 'a')).length)

/-! Basic lemmas about the filesystem model. -/

theorem findVal_filter (l : List (FPath × String)) (f : FPath → Bool) (q : FPath) :
    findVal (l.filter (fun e => f e.1)) q = if f q then findVal l q else none := by
  induction l with
  | nil => cases hf : f q <;> simp [findVal, hf]
  | cons a rest ih =>
    by_cases ha : a.1 = q
    · subst ha
      cases hf : f a.1 <;> simp [findVal, hf, List.filter, ih]
    · cases hf : f a.1 <;> cases hfq : f q <;>
        simp [findVal, hf, hfq, List.filter, ih, ha]

theorem findVal_setFile_self (l : List (FPath × String)) (p : FPath) (c : String) :
    findVal (setFile l p c) p = some c := by
  simp [setFile, findVal]

theorem findVal_setFile_ne (l : List (FPath × String)) (p q : FPath) (c : String)
    (h : q ≠ p) : findVal (setFile l p c) q = findVal l q := by
  have h2 := findVal_filter l (fun x => decide (x ≠ p)) q
  rw [show (decide (q ≠ p)) = true from decide_eq_true h, if_pos rfl] at h2
  show (if p = q then some c else findVal (l.filter fun e => decide (e.1 ≠ p)) q) = findVal l q
  rw [if_neg (fun he => h he.symm)]
  exact h2

theorem hasPath_append_eq (l1 l2 : List FPath) (q : FPath) :
    hasPath (l1 ++ l2) q = (hasPath l1 q || hasPath l2 q) := by
  induction l1 with
  | nil => simp [hasPath]
  | cons a rest ih =>
    by_cases ha : a = q <;> simp [hasPath, ha, ih]

theorem hasPath_mem_iff (l : List FPath) (q : FPath) : hasPath l q = true ↔ q ∈ l := by
  induction l with
  | nil => simp [hasPath]
  | cons a rest ih =>
    by_cases ha : a = q <;> simp [hasPath, ha, ih]
    exact fun h => (ha h.symm).elim

theorem hasPath_filter (l : List FPath) (f : FPath → Bool) (q : FPath) :
    hasPath (l.filter f) q = (f q && hasPath l q) := by
  induction l with
  | nil => simp [hasPath]
  | cons a rest ih =>
    by_cases ha : a = q
    · subst ha
      cases hf : f a <;> simp [hasPath, List.filter, hf, ih]
    · cases hf : f a <;> simp [hasPath, List.filter, hf, ih, ha]

theorem addSuffix_concat (l : List String) (a s : String) :
    addSuffix (l ++ [a]) s = l ++ [a ++ s] := by
  induction l with
  | nil => rfl
  | cons x xs ih =>
    cases xs with
    | nil => rfl
    | cons y ys => simpa [addSuffix] using ih

theorem append_singleton_ne_nil (l : List String) (a : String) : l ++ [a] ≠ [] := by
  simp

theorem isPre_append_self (p t : FPath) : isPre p (p ++ t) = true := by
  induction p with
  | nil => rfl
  | cons a rest ih => simpa [isPre] using ih

theorem isPre_append_drop (p q : FPath) (h : isPre p q = true) :
    p ++ q.drop p.length = q := by
  induction p generalizing q with
  | nil => simp
  | cons a rest ih =>
    cases q with
    | nil => simp [isPre] at h
    | cons b qs =>
      simp only [isPre] at h
      by_cases hab : a = b
      · subst hab
        rw [if_pos rfl] at h
        simpa using ih qs h
      · rw [if_neg hab] at h
        exact absurd h (by simp)

theorem isPre_length_le (p q : FPath) (h : isPre p q = true) : p.length ≤ q.length := by
  have h2 := isPre_append_drop p q h
  calc p.length ≤ p.length + (q.drop p.length).length := Nat.le_add_right _ _
  _ = (p ++ q.drop p.length).length := (List.length_append _ _).symm
  _ = q.length := by rw [h2]

theorem drop_append_self (l t : List String) : (l ++ t).drop l.length = t := by
  induction l with
  | nil => simp
  | cons a rest ih => simp [ih]

theorem leadParts_length_le (p q : FPath) (h : q ∈ leadParts p) : q.length ≤ p.length := by
  induction p generalizing q with
  | nil => simp [leadParts] at h
  | cons a rest ih =>
    simp only [leadParts, List.mem_cons, List.mem_map] at h
    rcases h with h | ⟨w, hw, rfl⟩
    · subst h; simp [Nat.succ_le_succ, Nat.zero_le]
    · simpa using Nat.succ_le_succ (ih w hw)

theorem self_mem_leadParts (p : FPath) (h : p ≠ []) : p ∈ leadParts p := by
  induction p with
  | nil => exact absurd rfl h
  | cons a rest ih =>
    cases rest with
    | nil => simp [leadParts]
    | cons b bs =>
      have hm : (b :: bs) ∈ leadParts (b :: bs) := ih (by simp)
      have h2 : (a :: b :: bs) ∈ (leadParts (b :: bs)).map (fun q => a :: q) :=
        List.mem_map.mpr ⟨b :: bs, hm, rfl⟩
      exact List.mem_cons_of_mem _ h2

theorem findVal_isSome_of_mem (l : List (FPath × String)) (q : FPath)
    (h : q ∈ l.map (fun e => e.1)) : (findVal l q).isSome = true := by
  induction l with
  | nil => simp at h
  | cons a rest ih =>
    by_cases ha : a.1 = q
    · simp [findVal, ha]
    · simp only [List.map_cons, List.mem_cons] at h
      rcases h with h | h
      · exact absurd h.symm ha
      · simpa [findVal, ha] using ih h

/-! Lemmas about the filesystem operations. -/

theorem mkdirAll_ok (fs : Fs) (p : FPath) (fs' : Fs) (h : mkdirAll fs p = .ok fs') :
    fs'.files = fs.files
      ∧ fs'.dirs = fs.dirs ++ (leadParts p).filter (fun q => ! hasPath fs.dirs q) := by
  unfold mkdirAll at h
  split at h
  · simp at h
  · simp only [Except.ok.injEq] at h
    rw [← h]
    exact ⟨rfl, rfl⟩

theorem mkdirAll_ok_hasPath_new (fs : Fs) (p : FPath) (fs' : Fs) (q : FPath)
    (h : mkdirAll fs p = .ok fs') (hq : q ∈ leadParts p) : hasPath fs'.dirs q = true := by
  obtain ⟨-, hd⟩ := mkdirAll_ok fs p fs' h
  rw [hd, hasPath_append_eq]
  cases hb : hasPath fs.dirs q with
  | true => simp
  | false =>
    have hm : q ∈ (leadParts p).filter (fun w => ! hasPath fs.dirs w) :=
      List.mem_filter.mpr ⟨hq, by simp [hb]⟩
    rw [(hasPath_mem_iff _ _).mpr hm]
    simp

theorem mkdirAll_ok_hasPath_other (fs : Fs) (p : FPath) (fs' : Fs) (q : FPath)
    (h : mkdirAll fs p = .ok fs') (hq : q ∉ leadParts p) :
    hasPath fs'.dirs q = hasPath fs.dirs q := by
  obtain ⟨-, hd⟩ := mkdirAll_ok fs p fs' h
  rw [hd, hasPath_append_eq]
  have hz : hasPath ((leadParts p).filter (fun w => ! hasPath fs.dirs w)) q = false := by
    cases hh : hasPath ((leadParts p).filter (fun w => ! hasPath fs.dirs w)) q with
    | false => rfl
    | true =>
      exact absurd (List.mem_filter.mp ((hasPath_mem_iff _ _).mp hh)).1 hq
  rw [hz]
  simp

theorem writeFile_ok (fs : Fs) (p : FPath) (c : String) (fs' : Fs)
    (h : writeFile fs p c = .ok fs') :
    fs' = { fs with files := setFile fs.files p c }
      ∧ isDirB fs p = false ∧ isDirB fs p.dropLast = true := by
  unfold writeFile at h
  split at h
  · simp at h
  · split at h
    · simp only [Except.ok.injEq] at h
      rename_i h1 h2
      exact ⟨h.symm, by simpa using h1, h2⟩
    · simp at h

theorem rename_ok_file (fs : Fs) (src dst : FPath) (c : String) (fs' : Fs)
    (hsrc : findVal fs.files src = some c) (h : rename fs src dst = .ok fs') :
    fs'.files = setFile (fs.files.filter (fun e => decide (e.1 ≠ src))) dst c
      ∧ fs'.dirs = fs.dirs ∧ hasPath fs.dirs dst = false := by
  unfold rename at h
  split at h
  · simp at h
  · split at h
    · rename_i c' heq
      rw [hsrc] at heq
      injection heq with heq2
      subst heq2
      split at h
      · simp at h
      · rename_i h2
        simp only [Except.ok.injEq] at h
        rw [← h]
        exact ⟨rfl, rfl, by simpa using h2⟩
    · rename_i heq
      rw [hsrc] at heq
      exact absurd heq (by simp)

theorem removeAll_removed (fs : Fs) (p q : FPath) (h : isPre p q = true) :
    findVal (removeAll fs p).files q = none ∧ hasPath (removeAll fs p).dirs q = false := by
  constructor
  · have h2 := findVal_filter fs.files (fun x => ! isPre p x) q
    rw [h] at h2
    simpa using h2
  · have h2 := hasPath_filter fs.dirs (fun x => ! isPre p x) q
    rw [h] at h2
    simpa using h2

theorem removeAll_kept (fs : Fs) (p q : FPath) (h : isPre p q = false) :
    findVal (removeAll fs p).files q = findVal fs.files q
      ∧ hasPath (removeAll fs p).dirs q = hasPath fs.dirs q := by
  constructor
  · have h2 := findVal_filter fs.files (fun x => ! isPre p x) q
    rw [h] at h2
    simpa using h2
  · have h2 := hasPath_filter fs.dirs (fun x => ! isPre p x) q
    rw [h] at h2
    simpa using h2

theorem getOrCreateMutex_dir (d : Driver) (c : String) :
    ((d.getOrCreateMutex c).2).dir = d.dir := by
  unfold Driver.getOrCreateMutex
  split <;> rfl

theorem mlookup_getOrCreateMutex (d : Driver) (c n : String) (i : Nat)
    (h : mlookup d.mutexes n = some i) :
    mlookup ((d.getOrCreateMutex c).2).mutexes n = some i := by
  unfold Driver.getOrCreateMutex
  split
  · exact h
  · rename_i heq
    show mlookup ((c, d.nextM) :: d.mutexes) n = some i
    by_cases hc : c = n
    · subst hc
      rw [heq] at h
      exact absurd h (by simp)
    · simpa [mlookup, hc] using h

theorem getOrCreateMutex_found (d : Driver) (c : String) :
    mlookup ((d.getOrCreateMutex c).2).mutexes c = some (d.getOrCreateMutex c).1 := by
  unfold Driver.getOrCreateMutex
  split
  · rename_i m heq
    exact heq
  · simp [mlookup]

theorem getOrCreateMutex_of_found (d : Driver) (c : String) (m : Nat)
    (h : mlookup d.mutexes c = some m) : d.getOrCreateMutex c = (m, d) := by
  unfold Driver.getOrCreateMutex
  rw [h]

theorem append_tmp_ne (x : String) : x ++ tmpSuffix ≠ x := by
  intro h
  have h2 : (x ++ tmpSuffix).length = x.length := by rw [h]
  rw [String.length_append] at h2
  have h3 : tmpSuffix.length = 4 := rfl
  omega

theorem tempPath_ne_final (l : List String) (x : String) :
    addSuffix (l ++ [x]) tmpSuffix ≠ l ++ [x] := by
  rw [addSuffix_concat]
  intro h
  have h3 := congrArg (fun t => List.drop l.length t) h
  simp only [drop_append_self] at h3
  injection h3 with h4 h5
  exact append_tmp_ne x h4

theorem statOne_file (fs : Fs) (p : FPath) (hne : p ≠ []) (hd : hasPath fs.dirs p = false)
    (hf : (findVal fs.files p).isSome = true) : statOne fs p = some .file := by
  unfold statOne isDirB
  rw [if_neg hne, hd]
  simp [hf]

theorem stat_ok_of_sfx (fs : Fs) (p : FPath)
    (hs : statOne fs (addSuffix p jsonSuffix) = some FType.file) :
    ∃ t, stat fs p = .ok t := by
  unfold stat
  split
  · exact ⟨_, rfl⟩
  · rw [hs]
    exact ⟨FType.file, rfl⟩

theorem readFile_ok_of (fs : Fs) (p : FPath) (b : String) (hne : p ≠ [])
    (hd : hasPath fs.dirs p = false) (hf : findVal fs.files p = some b) :
    readFile fs p = .ok b := by
  simp [readFile, isDirB, hne, hd, hf]

theorem read_ok_final {Doc : Type} (S : Serializer Doc) (d : Driver) (fs : Fs)
    (c r b : String) (v : Doc) (hc : c ≠ "") (hr : r ≠ "")
    (hf : findVal fs.files ((d.dir ++ [c]) ++ [r ++ jsonSuffix]) = some b)
    (hd : hasPath fs.dirs ((d.dir ++ [c]) ++ [r ++ jsonSuffix]) = false)
    (hu : S.unmarshal b = some v) :
    Driver.read S d fs c r = .ok v := by
  have hrec : d.dir ++ [c, r] = (d.dir ++ [c]) ++ [r] := by simp
  have hsfx : addSuffix (d.dir ++ [c, r]) jsonSuffix = (d.dir ++ [c]) ++ [r ++ jsonSuffix] := by
    rw [hrec, addSuffix_concat]
  have hnn : (d.dir ++ [c]) ++ [r ++ jsonSuffix] ≠ [] := by simp
  have hs1 : statOne fs (addSuffix (d.dir ++ [c, r]) jsonSuffix) = some FType.file := by
    rw [hsfx]
    exact statOne_file fs _ hnn hd (by rw [hf]; rfl)
  have hread : readFile fs (addSuffix (d.dir ++ [c, r]) jsonSuffix) = .ok b := by
    rw [hsfx]
    exact readFile_ok_of fs _ b hnn hd hf
  obtain ⟨t, hst⟩ := stat_ok_of_sfx fs (d.dir ++ [c, r]) hs1
  simp [Driver.read, hc, hr, hst, hread, hu]

theorem write_ok_core {Doc : Type} (S : Serializer Doc) (d : Driver) (fs : Fs)
    (c r : String) (v : Doc) (d' : Driver) (fs' : Fs)
    (h : Driver.write S d fs c r v = (.ok (), d', fs')) :
    c ≠ "" ∧ r ≠ "" ∧ d' = (d.getOrCreateMutex c).2
      ∧ ∃ s, S.marshal v = some s
        ∧ findVal fs'.files ((d.dir ++ [c]) ++ [r ++ jsonSuffix]) = some (s ++ "\n")
        ∧ hasPath fs'.dirs ((d.dir ++ [c]) ++ [r ++ jsonSuffix]) = false
        ∧ findVal fs'.files (addSuffix ((d.dir ++ [c]) ++ [r ++ jsonSuffix]) tmpSuffix)
            = none := by
  by_cases hc : c = ""
  · simp [Driver.write, hc] at h
  · by_cases hr : r = ""
    · simp [Driver.write, hc, hr] at h
    · simp only [Driver.write, if_neg hc, if_neg hr] at h
      split at h
      · simp at h
      · rename_i fs1 hmk
        split at h
        · simp at h
        · rename_i b hmar
          split at h
          · simp at h
          · rename_i fs2 hwf
            split at h
            · simp at h
            · rename_i fs3 hrn
              simp only [Prod.mk.injEq] at h
              obtain ⟨-, hd1, hfs3⟩ := h
              rw [← hfs3]
              obtain ⟨hfs2, hnd, hpar⟩ := writeFile_ok fs1 _ _ fs2 hwf
              have hsrc : findVal fs2.files
                  (addSuffix ((d.dir ++ [c]) ++ [r ++ jsonSuffix]) tmpSuffix)
                    = some (b ++ "\n") := by
                rw [hfs2]
                exact findVal_setFile_self _ _ _
              obtain ⟨hf3, hd3, hnd3⟩ := rename_ok_file fs2 _ _ _ fs3 hsrc hrn
              have htne := tempPath_ne_final (d.dir ++ [c]) (r ++ jsonSuffix)
              refine ⟨hc, hr, hd1.symm, b, hmar, ?_, ?_, ?_⟩
              · rw [hf3]
                exact findVal_setFile_self _ _ _
              · rw [hd3]
                exact hnd3
              · rw [hf3, findVal_setFile_ne _ _ _ _ htne]
                have h4 := findVal_filter fs2.files
                  (fun x =>
                    decide (x ≠ addSuffix ((d.dir ++ [c]) ++ [r ++ jsonSuffix]) tmpSuffix))
                  (addSuffix ((d.dir ++ [c]) ++ [r ++ jsonSuffix]) tmpSuffix)
                rw [decide_eq_false (fun hh => hh rfl), if_neg (by simp)] at h4
                exact h4

theorem final_not_leadPart (d : Driver) (c r : String) :
    ((d.dir ++ [c]) ++ [r ++ jsonSuffix]) ∉ leadParts (d.dir ++ [c]) := by
  intro hmem
  have h1 := leadParts_length_le (d.dir ++ [c]) _ hmem
  simp at h1

theorem write_error_core {Doc : Type} (S : Serializer Doc) (d : Driver) (fs : Fs)
    (c r : String) (v : Doc) (e : DbError) (d' : Driver) (fs' : Fs)
    (h : Driver.write S d fs c r v = (.error e, d', fs')) :
    findVal fs'.files ((d.dir ++ [c]) ++ [r ++ jsonSuffix])
        = findVal fs.files ((d.dir ++ [c]) ++ [r ++ jsonSuffix])
      ∧ hasPath fs'.dirs ((d.dir ++ [c]) ++ [r ++ jsonSuffix])
        = hasPath fs.dirs ((d.dir ++ [c]) ++ [r ++ jsonSuffix]) := by
  by_cases hc : c = ""
  · simp only [Driver.write, hc, if_pos rfl, Prod.mk.injEq] at h
    obtain ⟨-, -, rfl⟩ := h
    exact ⟨rfl, rfl⟩
  · by_cases hr : r = ""
    · simp only [Driver.write, if_neg hc, hr, if_pos rfl, Prod.mk.injEq] at h
      obtain ⟨-, -, rfl⟩ := h
      exact ⟨rfl, rfl⟩
    · simp only [Driver.write, if_neg hc, if_neg hr] at h
      split at h
      · simp only [Prod.mk.injEq] at h
        obtain ⟨-, -, rfl⟩ := h
        exact ⟨rfl, rfl⟩
      · rename_i fs1 hmk
        have hfiles1 := (mkdirAll_ok fs _ fs1 hmk).1
        have hdirs1 := mkdirAll_ok_hasPath_other fs _ fs1
          ((d.dir ++ [c]) ++ [r ++ jsonSuffix]) hmk (final_not_leadPart d c r)
        split at h
        · simp only [Prod.mk.injEq] at h
          obtain ⟨-, -, rfl⟩ := h
          exact ⟨by rw [hfiles1], hdirs1⟩
        · rename_i b hmar
          split at h
          · simp only [Prod.mk.injEq] at h
            obtain ⟨-, -, rfl⟩ := h
            exact ⟨by rw [hfiles1], hdirs1⟩
          · rename_i fs2 hwf
            obtain ⟨hfs2, -, -⟩ := writeFile_ok fs1 _ _ fs2 hwf
            have htne := tempPath_ne_final (d.dir ++ [c]) (r ++ jsonSuffix)
            split at h
            · simp only [Prod.mk.injEq] at h
              obtain ⟨-, -, rfl⟩ := h
              constructor
              · rw [hfs2]
                show findVal (setFile fs1.files _ _) _ = _
                rw [findVal_setFile_ne _ _ _ _ (fun hh => htne hh.symm), hfiles1]
              · rw [hfs2]
                exact hdirs1
            · simp at h

theorem isDirB_of_hasPath (fs : Fs) (p : FPath) (h : hasPath fs.dirs p = true) :
    isDirB fs p = true := by
  unfold isDirB
  split
  · rfl
  · exact h

theorem statOne_dir (fs : Fs) (p : FPath) (h : isDirB fs p = true) :
    statOne fs p = some .dir := by
  simp [statOne, h]

theorem stat_of_statOne (fs : Fs) (p : FPath) (t : FType) (h : statOne fs p = some t) :
    stat fs p = .ok t := by
  unfold stat
  rw [h]

theorem stat_none (fs : Fs) (p : FPath) (h1 : statOne fs p = none)
    (h2 : statOne fs (addSuffix p jsonSuffix) = none) : stat fs p = .error .notFound := by
  unfold stat
  rw [h1, h2]

theorem readDir_ok (fs : Fs) (p : FPath) (ns : List String) (h : readDir fs p = .ok ns) :
    ns = childNames fs p ∧ isDirB fs p = true := by
  unfold readDir at h
  split at h
  · rename_i hd
    injection h with h2
    exact ⟨h2.symm, hd⟩
  · split at h <;> simp at h

theorem readEntries_ok_forall (fs : Fs) (dir : FPath) (l rs : List String)
    (h : readEntries fs dir l = .ok rs) :
    List.Forall₂ (fun n s => readFile fs (dir ++ [n]) = .ok s) l rs := by
  induction l generalizing rs with
  | nil =>
    simp only [readEntries, Except.ok.injEq] at h
    rw [← h]
    exact List.Forall₂.nil
  | cons n rest ih =>
    unfold readEntries at h
    split at h
    · simp at h
    · rename_i s hs
      split at h
      · simp at h
      · rename_i ss hss
        injection h with h2
        rw [← h2]
        exact List.Forall₂.cons hs (ih ss hss)

theorem readEntries_error_of_mem (fs : Fs) (dir : FPath) (l : List String) (n : String)
    (e : DbError) (hn : n ∈ l) (he : readFile fs (dir ++ [n]) = .error e) :
    ∃ e2, readEntries fs dir l = .error e2 := by
  induction l with
  | nil => simp at hn
  | cons m rest ih =>
    cases hm : readFile fs (dir ++ [m]) with
    | error e1 => exact ⟨e1, by simp [readEntries, hm]⟩
    | ok s =>
      rcases List.mem_cons.mp hn with rfl | hn2
      · rw [hm] at he
        exact absurd he (by simp)
      · obtain ⟨e2, h2⟩ := ih hn2
        exact ⟨e2, by simp [readEntries, hm, h2]⟩

theorem readEntries_error_uniform (fs : Fs) (dir : FPath) (l : List String)
    (hall : ∀ m ∈ l, (∃ s, readFile fs (dir ++ [m]) = .ok s)
      ∨ readFile fs (dir ++ [m]) = .error DbError.ioError)
    (hex : ∃ m ∈ l, readFile fs (dir ++ [m]) = .error DbError.ioError) :
    readEntries fs dir l = .error .ioError := by
  induction l with
  | nil => simp at hex
  | cons m rest ih =>
    rcases hall m (by simp) with ⟨s, hs⟩ | hioe
    · obtain ⟨m0, hm0, he0⟩ := hex
      rcases List.mem_cons.mp hm0 with rfl | hm0r
      · rw [hs] at he0
        exact absurd he0 (by simp)
      · have hrec := ih (fun x hx => hall x (List.mem_cons_of_mem _ hx)) ⟨m0, hm0r, he0⟩
        simp [readEntries, hs, hrec]
    · simp [readEntries, hioe]

theorem mem_dedup (l : List String) (n : String) : n ∈ dedup l ↔ n ∈ l := by
  induction l with
  | nil => simp [dedup]
  | cons a rest ih =>
    by_cases hn : n = a
    · subst hn
      simp [dedup]
    · simp [dedup, List.mem_filter, hn, ih]

theorem childOf_eq_some (p q : FPath) (n : String) : childOf p q = some n ↔ q = p ++ [n] := by
  constructor
  · intro h
    unfold childOf at h
    split at h
    · rename_i hpre
      split at h
      · rename_i m heq
        injection h with h2
        subst h2
        have h3 := isPre_append_drop p q hpre
        rw [heq] at h3
        exact h3.symm
      · exact absurd h (by simp)
    · exact absurd h (by simp)
  · rintro rfl
    unfold childOf
    rw [if_pos (isPre_append_self p [n]), drop_append_self]

theorem mem_childNames (fs : Fs) (p : FPath) (n : String) :
    n ∈ childNames fs p ↔ (p ++ [n]) ∈ allPaths fs := by
  unfold childNames
  rw [mem_dedup, List.mem_filterMap]
  constructor
  · rintro ⟨q, hq, hc⟩
    rw [← (childOf_eq_some p q n).mp hc]
    exact hq
  · intro h
    exact ⟨p ++ [n], h, (childOf_eq_some p _ n).mpr rfl⟩

theorem readFile_child_cases (fs : Fs) (q : FPath) (hq : q ∈ allPaths fs) :
    (∃ s, readFile fs q = .ok s) ∨ readFile fs q = .error DbError.ioError := by
  cases hd : isDirB fs q with
  | true =>
    right
    simp [readFile, hd]
  | false =>
    left
    rcases List.mem_append.mp hq with hf | hdq
    · have hs := findVal_isSome_of_mem fs.files q hf
      obtain ⟨s, hs2⟩ := Option.isSome_iff_exists.mp hs
      exact ⟨s, by simp [readFile, hd, hs2]⟩
    · have hm := (hasPath_mem_iff fs.dirs q).mpr hdq
      have h2 := isDirB_of_hasPath fs q hm
      rw [hd] at h2
      exact absurd h2 (by simp)

theorem readAll_ok_forall (d : Driver) (fs : Fs) (c : String) (rs : List String)
    (hc : c ≠ "") (h : Driver.readAll d fs c = .ok rs) :
    List.Forall₂ (fun n s => readFile fs ((d.dir ++ [c]) ++ [n]) = .ok s)
      (childNames fs (d.dir ++ [c])) rs := by
  simp only [Driver.readAll, if_neg hc] at h
  split at h
  · simp at h
  · split at h
    · simp at h
    · rename_i names hrd
      obtain ⟨hnames, -⟩ := readDir_ok fs _ names hrd
      rw [hnames] at h
      exact readEntries_ok_forall fs _ _ rs h

theorem readAll_error_of_child (d : Driver) (fs : Fs) (c n : String) (e : DbError)
    (hc : c ≠ "") (hn : n ∈ childNames fs (d.dir ++ [c]))
    (he : readFile fs ((d.dir ++ [c]) ++ [n]) = .error e) :
    ∃ e2, Driver.readAll d fs c = .error e2 := by
  cases hst : stat fs (d.dir ++ [c]) with
  | error e1 => exact ⟨e1, by simp [Driver.readAll, hc, hst]⟩
  | ok t =>
    cases hrd : readDir fs (d.dir ++ [c]) with
    | error e1 => exact ⟨e1, by simp [Driver.readAll, hc, hst, hrd]⟩
    | ok names =>
      have hnames := (readDir_ok fs _ names hrd).1
      obtain ⟨e2, h2⟩ := readEntries_error_of_mem fs (d.dir ++ [c]) names n e
        (by rw [hnames]; exact hn) he
      exact ⟨e2, by simp [Driver.readAll, hc, hst, hrd, h2]⟩

theorem readAll_error_entry (d : Driver) (fs : Fs) (c n : String) (hc : c ≠ "")
    (hdir : isDirB fs (d.dir ++ [c]) = true)
    (hmem : n ∈ childNames fs (d.dir ++ [c]))
    (hioe : readFile fs ((d.dir ++ [c]) ++ [n]) = .error DbError.ioError) :
    Driver.readAll d fs c = .error .ioError := by
  have hst : stat fs (d.dir ++ [c]) = .ok .dir :=
    stat_of_statOne fs _ _ (statOne_dir fs _ hdir)
  have hrd : readDir fs (d.dir ++ [c]) = .ok (childNames fs (d.dir ++ [c])) := by
    simp [readDir, hdir]
  have hall : ∀ m ∈ childNames fs (d.dir ++ [c]),
      (∃ s, readFile fs ((d.dir ++ [c]) ++ [m]) = .ok s)
        ∨ readFile fs ((d.dir ++ [c]) ++ [m]) = .error DbError.ioError := by
    intro m hm
    exact readFile_child_cases fs _ ((mem_childNames fs _ m).mp hm)
  have hre := readEntries_error_uniform fs (d.dir ++ [c]) _ hall ⟨n, hmem, hioe⟩
  simp only [Driver.readAll, if_neg hc, hst, hrd]
  exact hre

theorem readAll_ioError_core (d : Driver) (fs : Fs) (c n : String) (hc : c ≠ "")
    (hdir : isDirB fs (d.dir ++ [c]) = true)
    (hsub : hasPath fs.dirs ((d.dir ++ [c]) ++ [n]) = true) :
    Driver.readAll d fs c = .error .ioError := by
  have hmem : n ∈ childNames fs (d.dir ++ [c]) :=
    (mem_childNames fs _ n).mpr
      (List.mem_append.mpr (Or.inr ((hasPath_mem_iff fs.dirs _).mp hsub)))
  have hsubdir : isDirB fs ((d.dir ++ [c]) ++ [n]) = true := isDirB_of_hasPath fs _ hsub
  have hioe : readFile fs ((d.dir ++ [c]) ++ [n]) = .error DbError.ioError := by
    unfold readFile
    rw [hsubdir]
    simp
  exact readAll_error_entry d fs c n hc hdir hmem hioe

theorem delete_eq_dir (d : Driver) (fs : Fs) (c r : String)
    (h : stat fs (d.dir ++ joinNames c r) = .ok FType.dir) :
    Driver.delete d fs c r
      = (.ok (), (d.getOrCreateMutex c).2, removeAll fs (d.dir ++ joinNames c r)) := by
  simp [Driver.delete, h]

theorem delete_eq_file (d : Driver) (fs : Fs) (c r : String)
    (h : stat fs (d.dir ++ joinNames c r) = .ok FType.file) :
    Driver.delete d fs c r
      = (.ok (), (d.getOrCreateMutex c).2,
          removeAll fs (addSuffix (d.dir ++ joinNames c r) jsonSuffix)) := by
  simp [Driver.delete, h]

theorem delete_eq_notFound (d : Driver) (fs : Fs) (c r : String) (e : DbError)
    (h : stat fs (d.dir ++ joinNames c r) = .error e) :
    Driver.delete d fs c r = (.error .notFound, (d.getOrCreateMutex c).2, fs) := by
  simp [Driver.delete, h]

theorem record_sfx (d : Driver) (c r : String) :
    addSuffix (d.dir ++ [c, r]) jsonSuffix = (d.dir ++ [c]) ++ [r ++ jsonSuffix] := by
  have hrec : d.dir ++ [c, r] = (d.dir ++ [c]) ++ [r] := by simp
  rw [hrec, addSuffix_concat]

theorem write_mutexes_preserved {Doc : Type} (S : Serializer Doc) (d : Driver) (fs : Fs)
    (c r : String) (v : Doc) (n : String) (i : Nat) (h : mlookup d.mutexes n = some i) :
    mlookup ((Driver.write S d fs c r v).2.1).mutexes n = some i := by
  by_cases hc : c = ""
  · simp only [Driver.write, hc, if_pos rfl]
    exact h
  · by_cases hr : r = ""
    · simp only [Driver.write, if_neg hc, hr, if_pos rfl]
      exact h
    · simp only [Driver.write, if_neg hc, if_neg hr]
      split
      · exact mlookup_getOrCreateMutex d c n i h
      · split
        · exact mlookup_getOrCreateMutex d c n i h
        · split
          · exact mlookup_getOrCreateMutex d c n i h
          · split
            · exact mlookup_getOrCreateMutex d c n i h
            · exact mlookup_getOrCreateMutex d c n i h

theorem delete_mutexes_preserved (d : Driver) (fs : Fs) (c r : String)
    (n : String) (i : Nat) (h : mlookup d.mutexes n = some i) :
    mlookup ((Driver.delete d fs c r).2.1).mutexes n = some i := by
  simp only [Driver.delete]
  split
  · exact mlookup_getOrCreateMutex d c n i h
  · exact mlookup_getOrCreateMutex d c n i h
  · exact mlookup_getOrCreateMutex d c n i h

theorem isDirB_concat (fs : Fs) (l : List String) (x : String) :
    isDirB fs (l ++ [x]) = hasPath fs.dirs (l ++ [x]) := by
  unfold isDirB
  rw [if_neg (by simp)]

/-! Concrete store states used to evaluate the operations on explicit inputs. -/

/-- Driver over root directory db with an empty lock registry. -/
def dbDrv : Driver := { dir := ["db"], mutexes := [], nextM := 0 }

/-- Fresh store: only the root directory exists. -/
def fs0 : Fs := { files := [], dirs := [["db"]] }

/-- Store holding one resource under its bare path, with no suffixed sibling. -/
def fsBare : Fs := { files := [(["db", "c", "r"], "x")], dirs := [["db"], ["db", "c"]] }

/-- Store holding one resource under its suffixed path. -/
def fsSfx : Fs := { files := [(["db", "c", "r.json"], "a\n")], dirs := [["db"], ["db", "c"]] }

/-- Store with one collection holding one resource file. -/
def fsUsers : Fs :=
  { files := [(["db", "users", "a.json"], "x")], dirs := [["db"], ["db", "users"]] }

/-- Store where a file blocks the collection directory path. -/
def fsBlocked : Fs := { files := [(["db", "c"], "x")], dirs := [["db"]] }

/-- Store with two resources in one collection. -/
def fsDel : Fs :=
  { files := [(["db", "c", "r.json"], "x"), (["db", "c", "q.json"], "y")],
    dirs := [["db"], ["db", "c"]] }

/-- Store with two readable resources in one collection. -/
def fsTwo : Fs :=
  { files := [(["db", "c", "a.json"], "1"), (["db", "c", "b.json"], "2")],
    dirs := [["db"], ["db", "c"]] }

/-- Store whose collection directory contains a subdirectory next to a resource. -/
def fsSub : Fs :=
  { files := [(["db", "c", "a.json"], "1")],
    dirs := [["db"], ["db", "c"], ["db", "c", "sub"]] }

/-! Claim theorems. -/

/-- C1: for every collection and resource name and every serializer-representable
document (the serializer decodes the marshalled bytes plus the trailing newline
back to the document), a Write that returns success followed by Read of the same
collection and resource on the resulting, otherwise unchanged, store returns a
value equal to the written document. -/
theorem write_read_roundtrip {Doc : Type} (S : Serializer Doc) (d : Driver) (fs : Fs)
    (c r : String) (v : Doc) (s : String) (d' : Driver) (fs' : Fs)
    (hm : S.marshal v = some s) (hu : S.unmarshal (s ++ "\n") = some v)
    (hw : Driver.write S d fs c r v = (.ok (), d', fs')) :
    Driver.read S d' fs' c r = .ok v := by
  obtain ⟨hc, hr, hd', s2, hm2, hf, hdp, -⟩ := write_ok_core S d fs c r v d' fs' hw
  rw [hm] at hm2
  injection hm2 with hs2
  subst hs2
  have hdir : d'.dir = d.dir := by
    rw [hd']
    exact getOrCreateMutex_dir d c
  apply read_ok_final S d' fs' c r (s ++ "\n") v hc hr ?_ ?_ hu
  · rw [hdir]
    exact hf
  · rw [hdir]
    exact hdp

/-- C1 witness: writing document 1 into a fresh store and reading it back
returns 1. -/
theorem write_read_roundtrip_witness :
    Driver.read serNat
      { dir := ["db"], mutexes := [("users", 0)], nextM := 1 }
      { files := [(["db", "users", "alice.json"], "a\n")], dirs := [["db"], ["db", "users"]] }
      "users" "alice" = .ok 1 :=
  write_read_roundtrip serNat dbDrv fs0 "users" "alice" 1 "a"
    { dir := ["db"], mutexes := [("users", 0)], nextM := 1 }
    { files := [(["db", "users", "alice.json"], "a\n")], dirs := [["db"], ["db", "users"]] }
    rfl rfl rfl

/-- C2 is refuted on the code: a resource stored only under the bare path, with
no suffixed sibling, passes resolution but Read then fails with NotFound, because
Read always reads the suffixed path rather than the file the resolution found
(src/main.go:110 reads record+".json" regardless of what stat resolved). -/
theorem read_bare_only_counterexample :
    Driver.read serNat dbDrv fsBare "c" "r" = .error DbError.notFound := rfl

/-- C2 amended: Read resolves through the bare-then-suffixed fallback and fails
with NotFound when neither path exists; after resolution it always reads the
suffixed path, so a suffixed file is read and deserialized regardless of how
resolution succeeded, while a resource stored only under the bare path passes
resolution and the subsequent read of the missing suffixed path fails with
NotFound. -/
theorem read_resolution_spec {Doc : Type} (S : Serializer Doc) (d : Driver) (fs : Fs)
    (c r : String) (hc : c ≠ "") (hr : r ≠ "") :
    (statOne fs (d.dir ++ [c, r]) = none →
        statOne fs (addSuffix (d.dir ++ [c, r]) jsonSuffix) = none →
        Driver.read S d fs c r = .error .notFound)
    ∧ (∀ b v, findVal fs.files ((d.dir ++ [c]) ++ [r ++ jsonSuffix]) = some b →
        hasPath fs.dirs ((d.dir ++ [c]) ++ [r ++ jsonSuffix]) = false →
        S.unmarshal b = some v → Driver.read S d fs c r = .ok v)
    ∧ (statOne fs (d.dir ++ [c, r]) ≠ none →
        findVal fs.files ((d.dir ++ [c]) ++ [r ++ jsonSuffix]) = none →
        hasPath fs.dirs ((d.dir ++ [c]) ++ [r ++ jsonSuffix]) = false →
        Driver.read S d fs c r = .error .notFound) := by
  refine ⟨?_, ?_, ?_⟩
  · intro h1 h2
    have hst := stat_none fs _ h1 h2
    simp only [Driver.read, if_neg hc, if_neg hr, hst]
  · intro b v hf hdp hu
    exact read_ok_final S d fs c r b v hc hr hf hdp hu
  · intro h1 hf hdp
    obtain ⟨t, ht⟩ := Option.ne_none_iff_exists'.mp h1
    have hst := stat_of_statOne fs _ t ht
    have hidb : isDirB fs ((d.dir ++ [c]) ++ [r ++ jsonSuffix]) = false := by
      rw [isDirB_concat]
      exact hdp
    have hrf : readFile fs ((d.dir ++ [c]) ++ [r ++ jsonSuffix]) = .error .notFound := by
      unfold readFile
      rw [hidb, hf]
      rfl
    simp only [Driver.read, if_neg hc, if_neg hr, hst]
    rw [record_sfx, hrf]

/-- C2 amended witness: a store holding the suffixed file is read successfully
through the amended description. -/
theorem read_resolution_spec_witness : Driver.read serNat dbDrv fsSfx "c" "r" = .ok 1 :=
  (read_resolution_spec serNat dbDrv fsSfx "c" "r" (by decide) (by decide)).2.1
    "a\n" 1 (by decide) (by decide) rfl

/-- C3 is refuted on the code: Delete performs no name validation at all
(src/main.go:141-148 has no empty-name checks), so Delete with an empty
resource name succeeds and removes the entire collection instead of failing
with a ValidationError before any filesystem access. -/
theorem delete_empty_validation_counterexample :
    (Driver.delete dbDrv fsUsers "users" "").1 = .ok ()
      ∧ (Driver.delete dbDrv fsUsers "users" "").2.2.files = [] := ⟨rfl, rfl⟩

/-- C3 amended: Write and Read reject an empty collection or resource name and
ReadAll an empty collection name, each with a ValidationError returned before
the filesystem or the lock registry is touched; Delete, however, performs no
name validation and can never return a ValidationError. -/
theorem empty_name_validation {Doc : Type} (S : Serializer Doc) (d : Driver) (fs : Fs)
    (c r : String) (v : Doc) :
    Driver.write S d fs "" r v
        = (.error (.validation "Missing collection - no place to save records"), d, fs)
    ∧ (c ≠ "" → Driver.write S d fs c "" v
        = (.error (.validation "Missing resource - unable to save records (no name)"), d, fs))
    ∧ Driver.read S d fs "" r = .error (.validation "Missing collection - unable to read")
    ∧ (c ≠ "" → Driver.read S d fs c ""
        = .error (.validation "Missing resource - unable to save record (no name)"))
    ∧ Driver.readAll d fs "" = .error (.validation "Missing collection - unable to read")
    ∧ (∀ m, (Driver.delete d fs c r).1 ≠ .error (.validation m)) := by
  refine ⟨by simp [Driver.write], fun hc => by simp [Driver.write, hc],
    by simp [Driver.read], fun hc => by simp [Driver.read, hc],
    by simp [Driver.readAll], ?_⟩
  intro m
  cases hst : stat fs (d.dir ++ joinNames c r) with
  | error e =>
    rw [delete_eq_notFound d fs c r e hst]
    simp
  | ok t =>
    cases t with
    | file =>
      rw [delete_eq_file d fs c r hst]
      simp
    | dir =>
      rw [delete_eq_dir d fs c r hst]
      simp

/-- C3 amended witness: Write with an empty resource name fails with the
resource ValidationError and changes nothing. -/
theorem empty_name_validation_witness :
    Driver.write serNat dbDrv fsUsers "x" "" (5 : Nat)
      = (.error (.validation "Missing resource - unable to save records (no name)"),
          dbDrv, fsUsers) :=
  (empty_name_validation serNat dbDrv fsUsers "x" "y" 5).2.1 (by decide)

/-- C4: whenever Write returns an error, the final suffixed resource path is
left untouched, both as a file entry and in directory status: the rename at the
end of Write is the only step that mutates the final path, and it only runs on
success. -/
theorem write_failure_final_untouched {Doc : Type} (S : Serializer Doc) (d : Driver)
    (fs : Fs) (c r : String) (v : Doc) (e : DbError) (d' : Driver) (fs' : Fs)
    (h : Driver.write S d fs c r v = (.error e, d', fs')) :
    findVal fs'.files ((d.dir ++ [c]) ++ [r ++ jsonSuffix])
        = findVal fs.files ((d.dir ++ [c]) ++ [r ++ jsonSuffix])
      ∧ hasPath fs'.dirs ((d.dir ++ [c]) ++ [r ++ jsonSuffix])
        = hasPath fs.dirs ((d.dir ++ [c]) ++ [r ++ jsonSuffix]) :=
  write_error_core S d fs c r v e d' fs' h

/-- C4 witness: a Write blocked by a file standing where the collection
directory should be fails and leaves the final path untouched. -/
theorem write_failure_final_untouched_witness :
    findVal fsBlocked.files ((dbDrv.dir ++ ["c"]) ++ ["r" ++ jsonSuffix])
        = findVal fsBlocked.files ((dbDrv.dir ++ ["c"]) ++ ["r" ++ jsonSuffix])
      ∧ hasPath fsBlocked.dirs ((dbDrv.dir ++ ["c"]) ++ ["r" ++ jsonSuffix])
        = hasPath fsBlocked.dirs ((dbDrv.dir ++ ["c"]) ++ ["r" ++ jsonSuffix]) :=
  write_failure_final_untouched serNat dbDrv fsBlocked "c" "r" 1 DbError.ioError
    { dir := ["db"], mutexes := [("c", 0)], nextM := 1 } fsBlocked rfl

/-- C5: Delete resolves the combined collection and resource path through the
fallback rule; a resolved directory is removed together with everything below
it, a resolved regular file leads to removal of the suffixed variant of the
combined path rather than the resolved path itself, and a failed resolution
yields the NotFound error with the store unchanged. -/
theorem delete_branches (d : Driver) (fs : Fs) (c r : String) :
    (stat fs (d.dir ++ joinNames c r) = .ok FType.dir →
        (Driver.delete d fs c r).1 = .ok ()
        ∧ (∀ q, isPre (d.dir ++ joinNames c r) q = true →
            findVal (Driver.delete d fs c r).2.2.files q = none
            ∧ hasPath (Driver.delete d fs c r).2.2.dirs q = false)
        ∧ (∀ q, isPre (d.dir ++ joinNames c r) q = false →
            findVal (Driver.delete d fs c r).2.2.files q = findVal fs.files q
            ∧ hasPath (Driver.delete d fs c r).2.2.dirs q = hasPath fs.dirs q))
    ∧ (stat fs (d.dir ++ joinNames c r) = .ok FType.file →
        (Driver.delete d fs c r).1 = .ok ()
        ∧ (∀ q, isPre (addSuffix (d.dir ++ joinNames c r) jsonSuffix) q = true →
            findVal (Driver.delete d fs c r).2.2.files q = none
            ∧ hasPath (Driver.delete d fs c r).2.2.dirs q = false)
        ∧ (∀ q, isPre (addSuffix (d.dir ++ joinNames c r) jsonSuffix) q = false →
            findVal (Driver.delete d fs c r).2.2.files q = findVal fs.files q
            ∧ hasPath (Driver.delete d fs c r).2.2.dirs q = hasPath fs.dirs q))
    ∧ (∀ e, stat fs (d.dir ++ joinNames c r) = .error e →
        Driver.delete d fs c r = (.error .notFound, (d.getOrCreateMutex c).2, fs)) := by
  refine ⟨?_, ?_, ?_⟩
  · intro h
    rw [delete_eq_dir d fs c r h]
    exact ⟨rfl, fun q hq => removeAll_removed fs _ q hq,
      fun q hq => removeAll_kept fs _ q hq⟩
  · intro h
    rw [delete_eq_file d fs c r h]
    exact ⟨rfl, fun q hq => removeAll_removed fs _ q hq,
      fun q hq => removeAll_kept fs _ q hq⟩
  · intro e h
    exact delete_eq_notFound d fs c r e h

/-- C5 witness: deleting a resource that resolves through the suffixed fallback
to a regular file removes the suffixed file and keeps its sibling. -/
theorem delete_branches_witness :
    (Driver.delete dbDrv fsDel "c" "r").1 = .ok ()
      ∧ findVal (Driver.delete dbDrv fsDel "c" "r").2.2.files ["db", "c", "r.json"] = none
      ∧ findVal (Driver.delete dbDrv fsDel "c" "r").2.2.files ["db", "c", "q.json"]
          = findVal fsDel.files ["db", "c", "q.json"] := by
  have h := (delete_branches dbDrv fsDel "c" "r").2.1 rfl
  exact ⟨h.1, (h.2.1 ["db", "c", "r.json"] (by decide)).1,
    (h.2.2 ["db", "c", "q.json"] (by decide)).1⟩

/-- C6: the lock registry holds one stable lock per collection name: after a
first getOrCreateMutex call, a second call with the same name returns the very
same lock and leaves the registry unchanged, and neither Write nor Delete ever
removes or rebinds an existing registry entry (Read and ReadAll never touch the
registry at all, src/main.go:97-139). -/
theorem mutex_registry_stable {Doc : Type} (S : Serializer Doc) (d : Driver)
    (fs : Fs) (c n : String) (i : Nat) (c2 r : String) (v : Doc) :
    ((d.getOrCreateMutex c).2).getOrCreateMutex c
        = ((d.getOrCreateMutex c).1, (d.getOrCreateMutex c).2)
    ∧ (mlookup d.mutexes n = some i →
        mlookup ((d.getOrCreateMutex c).2).mutexes n = some i)
    ∧ (mlookup d.mutexes n = some i →
        mlookup ((Driver.write S d fs c2 r v).2.1).mutexes n = some i)
    ∧ (mlookup d.mutexes n = some i →
        mlookup ((Driver.delete d fs c2 r).2.1).mutexes n = some i) := by
  refine ⟨?_, fun h => mlookup_getOrCreateMutex d c n i h,
    fun h => write_mutexes_preserved S d fs c2 r v n i h,
    fun h => delete_mutexes_preserved d fs c2 r n i h⟩
  exact getOrCreateMutex_of_found (d.getOrCreateMutex c).2 c (d.getOrCreateMutex c).1
    (getOrCreateMutex_found d c)

/-- C6 witness: a registry entry survives a Write on another collection, with
the same lock identity. -/
theorem mutex_registry_stable_witness :
    mlookup ((Driver.write serNat
        { dir := ["db"], mutexes := [("users", 0)], nextM := 1 }
        fsUsers "v" "w" (2 : Nat)).2.1).mutexes "users" = some 0 :=
  (mutex_registry_stable serNat
      { dir := ["db"], mutexes := [("users", 0)], nextM := 1 }
      fsUsers "x" "users" 0 "v" "w" 2).2.2.1 rfl

/-- C7: ReadAll on a nonempty collection name returns, on success, exactly the
raw stored bytes of every entry of the collection directory, one string per
entry in listing order with no deserialization (the operation does not involve
the serializer at all); and if reading any individual entry fails, the whole
call fails with IOError and no partial result is returned. -/
theorem readAll_raw_allornothing (d : Driver) (fs : Fs) (c : String) (hc : c ≠ "")
    (hdir : isDirB fs (d.dir ++ [c]) = true) :
    (∀ rs, Driver.readAll d fs c = .ok rs →
        List.Forall₂ (fun n s => readFile fs ((d.dir ++ [c]) ++ [n]) = .ok s)
          (childNames fs (d.dir ++ [c])) rs)
    ∧ (∀ n e, n ∈ childNames fs (d.dir ++ [c]) →
        readFile fs ((d.dir ++ [c]) ++ [n]) = .error e →
        Driver.readAll d fs c = .error .ioError) := by
  refine ⟨fun rs h => readAll_ok_forall d fs c rs hc h, fun n e hn he => ?_⟩
  rcases readFile_child_cases fs ((d.dir ++ [c]) ++ [n])
      ((mem_childNames fs _ n).mp hn) with ⟨s, hs⟩ | hioe
  · rw [hs] at he
    exact absurd he (by simp)
  · exact readAll_error_entry d fs c n hc hdir hn hioe

/-- C7 witness: ReadAll of a two-resource collection returns the two raw
payloads, each equal to the stored file bytes. -/
theorem readAll_raw_allornothing_witness :
    List.Forall₂ (fun n s => readFile fsTwo ((dbDrv.dir ++ ["c"]) ++ [n]) = .ok s)
      (childNames fsTwo (dbDrv.dir ++ ["c"])) ["1", "2"] :=
  (readAll_raw_allornothing dbDrv fsTwo "c" (by decide) (by decide)).1 ["1", "2"] rfl

/-- C8: two successive successful Writes to the same collection and resource
followed by a Read return the second document (last write wins), and after the
second Write the temporary file used by the write protocol is absent. -/
theorem last_write_wins {Doc : Type} (S : Serializer Doc) (d : Driver) (fs : Fs)
    (c r : String) (v1 v2 : Doc) (s2 : String) (d1 d2 : Driver) (fs1 fs2 : Fs)
    (hm2 : S.marshal v2 = some s2) (hu2 : S.unmarshal (s2 ++ "\n") = some v2)
    (h1 : Driver.write S d fs c r v1 = (.ok (), d1, fs1))
    (h2 : Driver.write S d1 fs1 c r v2 = (.ok (), d2, fs2)) :
    Driver.read S d2 fs2 c r = .ok v2
      ∧ findVal fs2.files
          (addSuffix ((d.dir ++ [c]) ++ [r ++ jsonSuffix]) tmpSuffix) = none := by
  obtain ⟨-, -, hd1eq, -, -, -, -, -⟩ := write_ok_core S d fs c r v1 d1 fs1 h1
  have hdir1 : d1.dir = d.dir := by
    rw [hd1eq]
    exact getOrCreateMutex_dir d c
  obtain ⟨hc, hr, hd2eq, s2x, hm2x, hf, hdp, ht⟩ := write_ok_core S d1 fs1 c r v2 d2 fs2 h2
  rw [hm2] at hm2x
  injection hm2x with hs
  subst hs
  have hdir2 : d2.dir = d1.dir := by
    rw [hd2eq]
    exact getOrCreateMutex_dir d1 c
  constructor
  · apply read_ok_final S d2 fs2 c r (s2 ++ "\n") v2 hc hr ?_ ?_ hu2
    · rw [hdir2]
      exact hf
    · rw [hdir2]
      exact hdp
  · rw [hdir1] at ht
    exact ht

/-- C8 witness: writing 1 then 2 to the same resource and reading it back
returns 2, and the temporary file is gone. -/
theorem last_write_wins_witness :
    Driver.read serNat
        { dir := ["db"], mutexes := [("users", 0)], nextM := 1 }
        { files := [(["db", "users", "alice.json"], "aa\n")],
          dirs := [["db"], ["db", "users"]] }
        "users" "alice" = .ok 2
      ∧ findVal
          [(["db", "users", "alice.json"], "aa\n")]
          (addSuffix ((dbDrv.dir ++ ["users"]) ++ ["alice" ++ jsonSuffix]) tmpSuffix)
        = none :=
  last_write_wins serNat dbDrv fs0 "users" "alice" 1 2 "aa"
    { dir := ["db"], mutexes := [("users", 0)], nextM := 1 }
    { dir := ["db"], mutexes := [("users", 0)], nextM := 1 }
    { files := [(["db", "users", "alice.json"], "a\n")], dirs := [["db"], ["db", "users"]] }
    { files := [(["db", "users", "alice.json"], "aa\n")], dirs := [["db"], ["db", "users"]] }
    rfl rfl rfl rfl

/-- C9: Delete joins the collection and resource names with empty components
dropped, so Delete of a collection with an empty resource name resolves to the
collection directory itself and removes it with everything below it, and Delete
with both names empty resolves to the store root and removes everything under
it. -/
theorem delete_empty_names (d : Driver) (fs : Fs) (c : String) (hc : c ≠ "")
    (hdir : hasPath fs.dirs (d.dir ++ [c]) = true) (hroot : isDirB fs d.dir = true) :
    joinNames c "" = [c]
    ∧ (Driver.delete d fs c "").1 = .ok ()
    ∧ (∀ q, isPre (d.dir ++ [c]) q = true →
        findVal (Driver.delete d fs c "").2.2.files q = none
        ∧ hasPath (Driver.delete d fs c "").2.2.dirs q = false)
    ∧ joinNames "" "" = []
    ∧ (Driver.delete d fs "" "").1 = .ok ()
    ∧ (∀ q, isPre d.dir q = true →
        findVal (Driver.delete d fs "" "").2.2.files q = none
        ∧ hasPath (Driver.delete d fs "" "").2.2.dirs q = false) := by
  have hjoin : joinNames c "" = [c] := by simp [joinNames, hc]
  have hst : stat fs (d.dir ++ joinNames c "") = .ok FType.dir := by
    rw [hjoin]
    exact stat_of_statOne fs _ _ (statOne_dir fs _ (by rw [isDirB_concat]; exact hdir))
  have hd1 := delete_eq_dir d fs c "" hst
  have hst2 : stat fs (d.dir ++ joinNames "" "") = .ok FType.dir := by
    show stat fs (d.dir ++ []) = _
    rw [List.append_nil]
    exact stat_of_statOne fs _ _ (statOne_dir fs _ hroot)
  have hd2 := delete_eq_dir d fs "" "" hst2
  refine ⟨hjoin, ?_, ?_, rfl, ?_, ?_⟩
  · rw [hd1]
  · intro q hq
    rw [hd1]
    show findVal (removeAll fs (d.dir ++ joinNames c "")).files q = none
      ∧ hasPath (removeAll fs (d.dir ++ joinNames c "")).dirs q = false
    rw [hjoin]
    exact removeAll_removed fs _ q hq
  · rw [hd2]
  · intro q hq
    rw [hd2]
    show findVal (removeAll fs (d.dir ++ joinNames "" "")).files q = none
      ∧ hasPath (removeAll fs (d.dir ++ joinNames "" "")).dirs q = false
    have hnil : d.dir ++ joinNames "" "" = d.dir := by
      show d.dir ++ [] = d.dir
      exact List.append_nil d.dir
    rw [hnil]
    exact removeAll_removed fs _ q hq

/-- C9 witness: Delete of the users collection with an empty resource name
succeeds and removes the resource file stored below it. -/
theorem delete_empty_names_witness :
    (Driver.delete dbDrv fsUsers "users" "").1 = .ok ()
      ∧ findVal (Driver.delete dbDrv fsUsers "users" "").2.2.files ["db", "users", "a.json"]
          = none := by
  have h := delete_empty_names dbDrv fsUsers "users" (by decide) (by decide) (by decide)
  exact ⟨h.2.1, (h.2.2.1 ["db", "users", "a.json"] (by decide)).1⟩

/-- C10: ReadAll attempts a plain file read of every entry of the collection
directory, so as soon as the directory contains any subdirectory the whole call
fails with IOError, even though every regular resource file is readable (in the
model a listed regular file always reads successfully, so the failure is due to
the subdirectory alone). -/
theorem readAll_subdir_ioError (d : Driver) (fs : Fs) (c n : String) (hc : c ≠ "")
    (hdir : isDirB fs (d.dir ++ [c]) = true)
    (hsub : hasPath fs.dirs ((d.dir ++ [c]) ++ [n]) = true) :
    Driver.readAll d fs c = .error .ioError :=
  readAll_ioError_core d fs c n hc hdir hsub

/-- C10 witness: ReadAll of a collection containing one readable resource and
one subdirectory fails with IOError. -/
theorem readAll_subdir_ioError_witness :
    Driver.readAll dbDrv fsSub "c" = .error .ioError :=
  readAll_subdir_ioError dbDrv fsSub "c" "sub" (by decide) (by decide) (by decide)
